import Mathlib

/-!
Verification development for the multiphase chemical-equilibria module
(chempy/equilibria.py).  The definitions below are a shallow embedding of
the functions of that module: concentration vectors are lists of rationals
(reals where logarithms, exponentials or hyperbolic functions occur),
stoichiometric coefficients are integers, and fallible code returns
Except.  Functions of collaborating modules that are not part of the
source tree (chempy.chemistry, chempy._util, pyneqsys, scipy) are modelled
from the specification and marked as such in their doc comments.
-/

namespace ChempyEq

section Core

variable {K : Type} [LinearOrderedField K]

/-- Dot product of two lists (elementwise product, then sum).  Basic
vector helper used by the residual builders and balance checks. -/
def dotL (v w : List K) : K := (List.zipWith (fun a b => a * b) v w).sum

/-- Minimum of a list, mirroring python min over a nonempty sequence;
the empty case (on which python raises) is mapped to 0 and is never hit
under the hypotheses of the theorems below. -/
def minList : List K → K
  | [] => 0
  | x :: xs => xs.foldl min x

/-- Maximum of a list, mirroring numpy max over a nonempty array;
the empty case (on which numpy raises) is mapped to 0 and is never hit
under the hypotheses of the theorems below. -/
def maxList : List K → K
  | [] => 0
  | x :: xs => xs.foldl max x

/-- Modelled from the spec: chempy._util.mat_dot_vec (absent from src/),
two-argument form: the plain matrix-vector product, as used for
B·init_concs in the conservation residuals (spec section 4.1). -/
def matVec (A : List (List K)) (v : List K) : List K := A.map (fun row => dotL row v)

/-- Modelled from the spec: chempy._util.mat_dot_vec (absent from src/),
three-argument form: matrix-vector product with an additive per-row term.
That the term is added (not subtracted) is forced by the call site in
NumSysLog.f (equilibria.py line 256), which negates the logarithms of the
equilibrium constants before passing them as the term. -/
def mat_dot_vec (A : List (List K)) (v : List K) (t : List K) : List K :=
  List.zipWith (fun row ti => dotL row v + ti) A t

/-- Modelled from the spec: pyneqsys.symbolic.linear_exprs (external
collaborator, spec section 6), rref disabled: the linear residual forms
A·x − b, giving the conservation rows B·c − B·init_concs of spec 4.1. -/
def linear_exprs (A : List (List K)) (x b : List K) : List K :=
  List.zipWith (fun row bi => dotL row x - bi) A b

/-- A substance: its composition maps conserved-quantity ids (0 is charge)
to stoichiometric weights (spec section 3, Substance). -/
structure Subst (K : Type) where
  composition : List (ℕ × K)

/-- Weight of conserved-quantity id n in substance s (0 when absent),
mirroring s.composition.get(n, 0). -/
def coeffOf (s : Subst K) (n : ℕ) : K :=
  ((s.composition.filter (fun p => p.1 == n)).map Prod.snd).sum

/-- Total amount of conserved-quantity id n carried by the given
concentrations: the accumulation loop of EqSystem.upper_conc_bounds
(equilibria.py lines 363-369). -/
def compConc (subs : List (Subst K)) (concs : List K) (n : ℕ) : K :=
  ((concs.zip subs).map (fun p => coeffOf p.2 n * p.1)).sum

/-- EqSystem.upper_conc_bounds (equilibria.py lines 362-378): for each
substance, the minimum over its nonzero composition ids of
(total amount of that component)/(coefficient); charge (id 0) skipped. -/
def upper_conc_bounds (subs : List (Subst K)) (init_concs : List K) : List K :=
  subs.map (fun s =>
    minList ((s.composition.filter (fun p => p.1 != 0)).map
      (fun p => compConc subs init_concs p.1 / p.2)))

/-- Modelled from the spec: ReactionSystem.composition_balance_vectors
(chempy.chemistry, absent from src/): one balance row per conserved
composition id appearing in the system, charge (id 0) excluded, each row
holding the per-substance weights of that id; returns (rows, ids). -/
def composition_balance_vectors (subs : List (Subst K)) : List (List K) × List ℕ :=
  let ids := (((subs.map (fun s => s.composition.map Prod.fst)).flatten).filter
    (fun n => n != 0)).dedup
  (ids.map (fun n => subs.map (fun s => coeffOf s n)), ids)

/-- EqSystem.composition_conservation (equilibria.py lines 398-403):
returns the conserved ids together with B·concs and B·init_concs. -/
def composition_conservation (subs : List (Subst K)) (concs init_concs : List K) :
    List ℕ × List K × List K :=
  let bv := composition_balance_vectors subs
  (bv.2, bv.1.map (fun row => dotL row concs), bv.1.map (fun row => dotL row init_concs))

end Core

/-- EqSystem._result_is_sane (equilibria.py lines 540-550): false iff some
concentration is negative or some concentration exceeds its
conservation-derived upper bound times (1 + 1e-12). -/
def result_is_sane (subs : List (Subst ℚ)) (init_concs x : List ℚ) : Bool :=
  let bounds := upper_conc_bounds subs init_concs
  let neg_conc := x.any (fun xi => decide (xi < 0))
  let too_much := (x.zip bounds).any (fun p => decide (p.2 * (1 + 1 / 10 ^ 12) < p.1))
  !(neg_conc || too_much)

/-- The warnings emitted by EqSystem._result_is_sane (equilibria.py lines
544-548): a negative-concentration warning and an exceeds-bound warning,
each fired by its own check, in source order. -/
def sanity_warnings (subs : List (Subst ℚ)) (init_concs x : List ℚ) : List String :=
  (if x.any (fun xi => decide (xi < 0)) then ["Negative concentration"] else []) ++
  (if (x.zip (upper_conc_bounds subs init_concs)).any
      (fun p => decide (p.2 * (1 + 1 / 10 ^ 12) < p.1)) then
    ["Too much of at least one component"] else [])

/-- Tail of EqSystem._solve (equilibria.py lines 563-567): the candidate x
produced by the external nonlinear solver is returned unchanged, paired
with the sanity flag (flagged, never discarded). -/
def solve_result (subs : List (Subst ℚ)) (init_concs x : List ℚ) : List ℚ × Bool :=
  (x, result_is_sane subs init_concs x)

/-- Modelled from the spec: chempy.chemistry.equilibrium_quotient (absent
from src/): the reaction quotient, the product of the concentrations
raised to their stoichiometric powers (spec glossary). -/
def equilibrium_quotient (c : List ℚ) (stoich : List ℤ) : ℚ :=
  ((c.zip stoich).map (fun p => p.1 ^ p.2)).prod

/-- equilibrium_residual (equilibria.py lines 27-50), one-dimensional
stoichiometry branch: K − Q(c0 + stoich·rc), the quotient multiplied by
the activity product when one is supplied. -/
def equilibrium_residual (rc : ℚ) (c0 : List ℚ) (stoich : List ℤ) (K : ℚ)
    (activity_product : Option (List ℚ → ℚ) := none) : ℚ :=
  let c := List.zipWith (fun (ci : ℚ) (si : ℤ) => ci + (si : ℚ) * rc) c0 stoich
  let q := equilibrium_quotient c stoich
  let q2 := match activity_product with
    | none => q
    | some f => q * f c
  K - q2

/-- get_rc_interval (equilibria.py lines 53-69): reaction-coordinate
interval from the ratios c0/stoich.  The python test for raising uses
identity with the literal 0 (lower is 0 and upper is 0), which holds
exactly when both branches fell through to the else literal, i.e. when
there is no negative and no positive ratio. -/
def get_rc_interval (stoich c0 : List ℚ) : Except String (ℚ × ℚ) :=
  let limits := List.zipWith (fun c s => c / s) c0 stoich
  let negs := limits.filter (fun l => decide (l < 0))
  let poss := limits.filter (fun l => decide (0 < l))
  if negs.isEmpty && poss.isEmpty then .error "0-interval"
  else .ok (if poss.isEmpty then 0 else -(minList poss),
            if negs.isEmpty then 0 else -(maxList negs))

/-- The ratio list c0/stoich formed by get_rc_interval. -/
def rc_limits (stoich c0 : List ℚ) : List ℚ := List.zipWith (fun c s => c / s) c0 stoich

/-- Upper bound of the reaction-coordinate interval as the spec words it:
the negative of the maximum of the negative ratios, or 0 if none. -/
def spec_upper (limits : List ℚ) : ℚ :=
  if (limits.filter (fun l => decide (l < 0))).isEmpty then 0
  else -(maxList (limits.filter (fun l => decide (l < 0))))

/-- Lower bound of the reaction-coordinate interval as the spec words it:
the negative of the minimum of the positive ratios, or 0 if none. -/
def spec_lower (limits : List ℚ) : ℚ :=
  if (limits.filter (fun l => decide (0 < l))).isEmpty then 0
  else -(minList (limits.filter (fun l => decide (0 < l))))

/-- The mask of _solve_equilibrium_coord (equilibria.py line 74): the
(concentration, coefficient) pairs with nonzero stoichiometric
coefficient. -/
def masked (c0 : List ℚ) (stoich : List ℤ) : List (ℚ × ℤ) :=
  (c0.zip stoich).filter (fun p => p.2 != 0)

/-- c0 restricted to species with nonzero stoichiometric coefficient. -/
def masked_c0 (c0 : List ℚ) (stoich : List ℤ) : List ℚ := (masked c0 stoich).map Prod.fst

/-- stoich restricted to its nonzero coefficients. -/
def masked_stoich (c0 : List ℚ) (stoich : List ℤ) : List ℤ := (masked c0 stoich).map Prod.snd

/-- _solve_equilibrium_coord (equilibria.py lines 72-84): bracket the
reaction coordinate on the masked vectors and hand the residual to the
external scalar root-finder (scipy brentq, spec section 6), here passed in
as the argument brentq. -/
def solve_equilibrium_coord (brentq : (ℚ → ℚ) → ℚ → ℚ → ℚ) (c0 : List ℚ)
    (stoich : List ℤ) (K : ℚ) (activity_product : Option (List ℚ → ℚ) := none) :
    Except String ℚ :=
  match get_rc_interval ((masked_stoich c0 stoich).map (fun s => (s : ℚ)))
      (masked_c0 c0 stoich) with
  | .error e => .error e
  | .ok (lower, upper) =>
    .ok (brentq
      (fun rc => equilibrium_residual rc (masked_c0 c0 stoich) (masked_stoich c0 stoich)
        K activity_product)
      lower upper)

/-- solve_equilibrium (equilibria.py lines 87-108): solve for the reaction
coordinate rc and return c0 + rc·stoich on the full species vector. -/
def solve_equilibrium (brentq : (ℚ → ℚ) → ℚ → ℚ → ℚ) (c0 : List ℚ)
    (stoich : List ℤ) (K : ℚ) (activity_product : Option (List ℚ → ℚ) := none) :
    Except String (List ℚ) :=
  match solve_equilibrium_coord brentq c0 stoich K activity_product with
  | .error e => .error e
  | .ok rc => .ok (List.zipWith (fun (ci : ℚ) (si : ℤ) => ci + rc * (si : ℚ)) c0 stoich)

/-- A reaction as the phase-condition and dissolved-projection code sees
it: net stoichiometry per substance, the index of its precipitating
species, its equilibrium constant, and whether it is a precipitation
reaction.  Modelled from the spec for the accessors of chempy.chemistry
(net_stoich, precipitate_stoich, K, has_precipitates; absent from src/). -/
structure Rxn where
  net_stoich : List ℤ
  precip_idx : ℕ
  K : ℚ
  has_precip : Bool

/-- Stoichiometric coefficient of the reaction's precipitating species
(the second component of precipitate_stoich). -/
def precipCoeff (r : Rxn) : ℤ := r.net_stoich.getD r.precip_idx 0

/-- Modelled from the spec: Reaction.Q (chempy.chemistry, absent from
src/): the reaction quotient of the given concentrations with respect to
the reaction's net stoichiometry. -/
def rxnQ (r : Rxn) (c : List ℚ) : ℚ := equilibrium_quotient c r.net_stoich

/-- One step of the loop of EqSystem.dissolved (equilibria.py lines
430-434): subtract (precipitate concentration / precipitate coefficient)
times the net stoichiometry for a precipitation reaction. -/
def dissolved_step (cs : List ℚ) (r : Rxn) : List ℚ :=
  if r.has_precip then
    List.zipWith (fun (c : ℚ) (s : ℤ) =>
      c - cs.getD r.precip_idx 0 / (precipCoeff r : ℚ) * (s : ℚ)) cs r.net_stoich
  else cs

/-- EqSystem.dissolved (equilibria.py lines 427-435): fold the projection
step over all reactions of the system. -/
def dissolved (rxns : List Rxn) (concs : List ℚ) : List ℚ := rxns.foldl dissolved_step concs

/-- The forward condition built by EqSystem._fw_cond_factory (equilibria.py
lines 437-450): with s the precipitating coefficient, Q the quotient of
the dissolved projection and K the constant, true iff Q(1+rtol) < K when
s > 0 and iff Q > K(1+rtol) when s < 0; s = 0 raises NotImplementedError.
rtol defaults to 1e-14 in the source. -/
def fw_cond (rxns : List Rxn) (ri : ℕ) (rtol : ℚ) (x : List ℚ) : Except String Bool :=
  match rxns[ri]? with
  | none => .error "IndexError"
  | some rxn =>
    let s := precipCoeff rxn
    let q := rxnQ rxn (dissolved rxns x)
    let k := rxn.K
    if 0 < s then .ok (decide (q * (1 + rtol) < k))
    else if s < 0 then .ok (decide (k * (1 + rtol) < q))
    else .error "NotImplementedError"

/-- The backward condition built by EqSystem._bw_cond_factory
(equilibria.py lines 452-461): false iff the precipitating species'
concentration is below the floor small. -/
def bw_cond (rxns : List Rxn) (ri : ℕ) (small : ℚ) (x : List ℚ) : Except String Bool :=
  match rxns[ri]? with
  | none => .error "IndexError"
  | some rxn => .ok (!decide (x.getD rxn.precip_idx 0 < small))

/-- numpy arctanh, used by NumSysLinTanh.pre_processor: half the logarithm
of (1+t)/(1−t). -/
noncomputable def np_arctanh (t : ℝ) : ℝ := Real.log ((1 + t) / (1 - t)) / 2

/-- NumSysLinRel.max_concs (equilibria.py lines 178-180): the
conservation-derived upper concentration bounds for the initial
concentrations carried in the first ns entries of params. -/
noncomputable def max_concs (subs : List (Subst ℝ)) (ns : ℕ) (params : List ℝ) : List ℝ :=
  upper_conc_bounds subs (params.take ns)

/-- NumSysLinRel.pre_processor (equilibria.py lines 182-183):
x / max_concs(params), params unchanged. -/
noncomputable def numSysLinRel_pre (subs : List (Subst ℝ)) (ns : ℕ) (x params : List ℝ) :
    List ℝ × List ℝ :=
  (List.zipWith (fun xi mi => xi / mi) x (max_concs subs ns params), params)

/-- NumSysLinRel.post_processor (equilibria.py lines 185-186):
x * max_concs(params), params unchanged. -/
noncomputable def numSysLinRel_post (subs : List (Subst ℝ)) (ns : ℕ) (x params : List ℝ) :
    List ℝ × List ℝ :=
  (List.zipWith (fun xi mi => xi * mi) x (max_concs subs ns params), params)

/-- NumSysSquare.pre_processor (equilibria.py lines 199-200):
sqrt(|x|) elementwise, params unchanged. -/
noncomputable def numSysSquare_pre (x params : List ℝ) : List ℝ × List ℝ :=
  (x.map (fun t => Real.sqrt |t|), params)

/-- NumSysSquare.post_processor (equilibria.py lines 202-203):
x squared elementwise, params unchanged. -/
def numSysSquare_post (x params : List ℝ) : List ℝ × List ℝ :=
  (x.map (fun t => t ^ 2), params)

/-- NumSysLinTanh.pre_processor (equilibria.py lines 215-217):
arctanh((8·x/ymax − 4)/5) elementwise against the upper concentration
bounds, params unchanged. -/
noncomputable def numSysLinTanh_pre (subs : List (Subst ℝ)) (ns : ℕ) (x params : List ℝ) :
    List ℝ × List ℝ :=
  (List.zipWith (fun xi mi => np_arctanh ((8 * xi / mi - 4) / 5)) x (max_concs subs ns params),
    params)

/-- NumSysLinTanh.post_processor (equilibria.py lines 219-221):
ymax·(4 + 5·tanh x)/8 elementwise, params unchanged. -/
noncomputable def numSysLinTanh_post (subs : List (Subst ℝ)) (ns : ℕ) (x params : List ℝ) :
    List ℝ × List ℝ :=
  (List.zipWith (fun yi mi => mi * (4 + 5 * Real.tanh yi) / 8) x (max_concs subs ns params),
    params)

/-- NumSysLog.small (equilibria.py line 238): exp(−80). -/
noncomputable def numSysLog_small : ℝ := Real.exp (-80)

/-- NumSysLog.pre_processor (equilibria.py lines 240-242):
log(x + small) elementwise, params unchanged. -/
noncomputable def numSysLog_pre (x params : List ℝ) : List ℝ × List ℝ :=
  (x.map (fun t => Real.log (t + numSysLog_small)), params)

/-- NumSysLog.post_processor (equilibria.py lines 244-245):
exp(x) elementwise, params unchanged. -/
noncomputable def numSysLog_post (x params : List ℝ) : List ℝ × List ℝ :=
  (x.map Real.exp, params)

/-- NumSysLog.f (equilibria.py lines 251-261) with rref disabled and no
precipitates, so that _get_A_ks returns the stoichiometric matrix A and
the equilibrium constants ks = params[ns:] unchanged: the equilibrium
rows mat_dot_vec(A, y, [−log k]) followed by the conservation rows
linear_exprs(B, exp(y), B·init_concs) with init_concs = params[:ns]. -/
noncomputable def numSysLog_f (A B : List (List ℝ)) (ns : ℕ) (params yvec : List ℝ) :
    List ℝ :=
  mat_dot_vec A yvec ((params.drop ns).map (fun k => -Real.log k)) ++
  linear_exprs B (yvec.map Real.exp) (matVec B (params.take ns))

/-- Equilibrium rows of the Log strategy as the corrected spec words
them: row i is (A·y)_i − log k_i. -/
noncomputable def log_equil_rows (A : List (List ℝ)) (ks y : List ℝ) : List ℝ :=
  List.zipWith (fun row k => dotL row y - Real.log k) A ks

/-- Conservation rows as the spec words them: row j is B_j·c − B_j·c0. -/
noncomputable def balance_rows (B : List (List ℝ)) (c c0 : List ℝ) : List ℝ :=
  B.map (fun row => dotL row c - dotL row c0)

section Lemmas

variable {K : Type} [LinearOrderedField K]

theorem zipWith_self {α γ : Type} (f : α → α → γ) (l : List α) :
    List.zipWith f l l = l.map (fun a => f a a) := by
  induction l with
  | nil => rfl
  | cons x xs ih => simp [ih]

theorem foldl_max_mem (xs : List K) (a : K) :
    xs.foldl max a = a ∨ xs.foldl max a ∈ xs := by
  induction xs generalizing a with
  | nil => exact Or.inl rfl
  | cons x xs ih =>
    rw [List.foldl_cons]
    rcases ih (max a x) with h | h
    · rcases max_choice a x with hm | hm
      · exact Or.inl (h.trans hm)
      · exact Or.inr (by rw [h, hm]; exact List.mem_cons_self x xs)
    · exact Or.inr (List.mem_cons_of_mem x h)

theorem foldl_max_le_init (xs : List K) (a : K) : a ≤ xs.foldl max a := by
  induction xs generalizing a with
  | nil => exact le_refl a
  | cons x xs ih => exact le_trans (le_max_left a x) (ih (max a x))

theorem mem_le_foldl_max (xs : List K) (a : K) : ∀ y ∈ xs, y ≤ xs.foldl max a := by
  induction xs generalizing a with
  | nil => intro y hy; cases hy
  | cons x xs ih =>
    intro y hy
    rcases List.mem_cons.mp hy with rfl | hy
    · exact le_trans (le_max_right a y) (foldl_max_le_init xs (max a y))
    · exact ih (max a x) y hy

theorem maxList_mem (x : K) (xs : List K) : maxList (x :: xs) ∈ x :: xs := by
  rcases foldl_max_mem xs x with h | h
  · rw [maxList, h]; exact List.mem_cons_self x xs
  · exact List.mem_cons_of_mem x (by rw [maxList]; exact h)

theorem le_maxList (x : K) (xs : List K) : ∀ y ∈ x :: xs, y ≤ maxList (x :: xs) := by
  intro y hy
  rcases List.mem_cons.mp hy with rfl | hy
  · exact foldl_max_le_init xs y
  · exact mem_le_foldl_max xs x y hy

theorem foldl_min_mem (xs : List K) (a : K) :
    xs.foldl min a = a ∨ xs.foldl min a ∈ xs := by
  induction xs generalizing a with
  | nil => exact Or.inl rfl
  | cons x xs ih =>
    rw [List.foldl_cons]
    rcases ih (min a x) with h | h
    · rcases min_choice a x with hm | hm
      · exact Or.inl (h.trans hm)
      · exact Or.inr (by rw [h, hm]; exact List.mem_cons_self x xs)
    · exact Or.inr (List.mem_cons_of_mem x h)

theorem foldl_min_le_init (xs : List K) (a : K) : xs.foldl min a ≤ a := by
  induction xs generalizing a with
  | nil => exact le_refl a
  | cons x xs ih => exact le_trans (ih (min a x)) (min_le_left a x)

theorem foldl_min_le_mem (xs : List K) (a : K) : ∀ y ∈ xs, xs.foldl min a ≤ y := by
  induction xs generalizing a with
  | nil => intro y hy; cases hy
  | cons x xs ih =>
    intro y hy
    rcases List.mem_cons.mp hy with rfl | hy
    · exact le_trans (foldl_min_le_init xs (min a y)) (min_le_right a y)
    · exact ih (min a x) y hy

theorem minList_mem (x : K) (xs : List K) : minList (x :: xs) ∈ x :: xs := by
  rcases foldl_min_mem xs x with h | h
  · rw [minList, h]; exact List.mem_cons_self x xs
  · exact List.mem_cons_of_mem x (by rw [minList]; exact h)

theorem minList_le (x : K) (xs : List K) : ∀ y ∈ x :: xs, minList (x :: xs) ≤ y := by
  intro y hy
  rcases List.mem_cons.mp hy with rfl | hy
  · exact foldl_min_le_init xs y
  · exact foldl_min_le_mem xs x y hy

theorem getD_zipWith {α β γ : Type} (f : α → β → γ) (a : List α) (b : List β)
    (j : ℕ) (d1 : α) (d2 : β) (d3 : γ) (h1 : j < a.length) (h2 : j < b.length) :
    (List.zipWith f a b).getD j d3 = f (a.getD j d1) (b.getD j d2) := by
  have hl : j < (List.zipWith f a b).length := by
    rw [List.length_zipWith]; exact lt_min h1 h2
  rw [List.getD_eq_getElem _ _ hl, List.getD_eq_getElem _ _ h1,
    List.getD_eq_getElem _ _ h2, List.getElem_zipWith]

theorem maxList_mem_of_ne (l : List K) (h : l ≠ []) : maxList l ∈ l := by
  cases l with
  | nil => exact absurd rfl h
  | cons x xs => exact maxList_mem x xs

theorem le_maxList_of_mem (l : List K) (y : K) (hy : y ∈ l) : y ≤ maxList l := by
  cases l with
  | nil => cases hy
  | cons x xs => exact le_maxList x xs y hy

theorem minList_mem_of_ne (l : List K) (h : l ≠ []) : minList l ∈ l := by
  cases l with
  | nil => exact absurd rfl h
  | cons x xs => exact minList_mem x xs

theorem minList_le_of_mem (l : List K) (y : K) (hy : y ∈ l) : minList l ≤ y := by
  cases l with
  | nil => cases hy
  | cons x xs => exact minList_le x xs y hy

end Lemmas

theorem maxList_negs_lt (L : List ℚ) (h : L.filter (fun l => decide (l < 0)) ≠ []) :
    maxList (L.filter (fun l => decide (l < 0))) < 0 := by
  have hm := maxList_mem_of_ne _ h
  have := (List.mem_filter.mp hm).2
  exact of_decide_eq_true this

theorem minList_poss_pos (L : List ℚ) (h : L.filter (fun l => decide (0 < l)) ≠ []) :
    0 < minList (L.filter (fun l => decide (0 < l))) := by
  have hm := minList_mem_of_ne _ h
  have := (List.mem_filter.mp hm).2
  exact of_decide_eq_true this

theorem get_rc_interval_eq (stoich c0 : List ℚ) :
    get_rc_interval stoich c0 =
      if ((rc_limits stoich c0).filter (fun l => decide (l < 0))).isEmpty &&
          ((rc_limits stoich c0).filter (fun l => decide (0 < l))).isEmpty then
        .error "0-interval"
      else .ok (spec_lower (rc_limits stoich c0), spec_upper (rc_limits stoich c0)) :=
  rfl

/-- C5 (confirmed): when get_rc_interval returns (lower, upper), the upper
bound is the negative of the maximum of the negative ratios c0_i/stoich_i
(0 when no ratio is negative) and the lower bound is the negative of the
minimum of the positive ratios (0 when no ratio is positive), stated here
through the characterising properties of those maxima and minima. -/
theorem C5_rc_interval_bounds (stoich c0 : List ℚ) (lo hi : ℚ)
    (h : get_rc_interval stoich c0 = .ok (lo, hi)) :
    ((∃ l ∈ rc_limits stoich c0, l < 0) →
      (-hi ∈ rc_limits stoich c0 ∧ -hi < 0 ∧
        ∀ l ∈ rc_limits stoich c0, l < 0 → l ≤ -hi)) ∧
    ((∀ l ∈ rc_limits stoich c0, ¬ l < 0) → hi = 0) ∧
    ((∃ l ∈ rc_limits stoich c0, 0 < l) →
      (-lo ∈ rc_limits stoich c0 ∧ 0 < -lo ∧
        ∀ l ∈ rc_limits stoich c0, 0 < l → -lo ≤ l)) ∧
    ((∀ l ∈ rc_limits stoich c0, ¬ 0 < l) → lo = 0) := by
  rw [get_rc_interval_eq] at h
  set L := rc_limits stoich c0 with hL
  by_cases hcond : (L.filter (fun l => decide (l < 0))).isEmpty &&
      (L.filter (fun l => decide (0 < l))).isEmpty
  · rw [if_pos hcond] at h; cases h
  · rw [if_neg hcond] at h
    have hpair : (spec_lower L, spec_upper L) = (lo, hi) := Except.ok.inj h
    have hlo : lo = spec_lower L := (congrArg Prod.fst hpair).symm
    have hhi : hi = spec_upper L := (congrArg Prod.snd hpair).symm
    refine ⟨?_, ?_, ?_, ?_⟩
    · rintro ⟨l, hl, hlneg⟩
      have hne : L.filter (fun l => decide (l < 0)) ≠ [] := by
        intro hnil
        have := List.filter_eq_nil.mp hnil l hl
        exact this (decide_eq_true hlneg)
      have hnemp : (L.filter (fun l => decide (l < 0))).isEmpty = false := by
        cases hfe : (L.filter (fun l => decide (l < 0))).isEmpty
        · rfl
        · exact absurd (List.isEmpty_iff.mp hfe) hne
      have hup : hi = -(maxList (L.filter (fun l => decide (l < 0)))) := by
        rw [hhi, spec_upper, if_neg (by rw [hnemp]; exact Bool.false_ne_true)]
      have hmax := maxList_mem_of_ne _ hne
      refine ⟨?_, ?_, ?_⟩
      · rw [hup, neg_neg]; exact (List.mem_filter.mp hmax).1
      · rw [hup, neg_neg]; exact maxList_negs_lt L hne
      · intro l2 hl2 hl2neg
        rw [hup, neg_neg]
        exact le_maxList_of_mem _ l2 (List.mem_filter.mpr ⟨hl2, decide_eq_true hl2neg⟩)
    · intro hall
      have hnil : L.filter (fun l => decide (l < 0)) = [] :=
        List.filter_eq_nil.mpr (fun a ha => by
          simpa using hall a ha)
      rw [hhi, spec_upper, if_pos (by rw [hnil]; rfl)]
    · rintro ⟨l, hl, hlpos⟩
      have hne : L.filter (fun l => decide (0 < l)) ≠ [] := by
        intro hnil
        have := List.filter_eq_nil.mp hnil l hl
        exact this (decide_eq_true hlpos)
      have hnemp : (L.filter (fun l => decide (0 < l))).isEmpty = false := by
        cases hfe : (L.filter (fun l => decide (0 < l))).isEmpty
        · rfl
        · exact absurd (List.isEmpty_iff.mp hfe) hne
      have hlow : lo = -(minList (L.filter (fun l => decide (0 < l)))) := by
        rw [hlo, spec_lower, if_neg (by rw [hnemp]; exact Bool.false_ne_true)]
      have hmin := minList_mem_of_ne _ hne
      refine ⟨?_, ?_, ?_⟩
      · rw [hlow, neg_neg]; exact (List.mem_filter.mp hmin).1
      · rw [hlow, neg_neg]; exact minList_poss_pos L hne
      · intro l2 hl2 hl2pos
        rw [hlow, neg_neg]
        exact minList_le_of_mem _ l2 (List.mem_filter.mpr ⟨hl2, decide_eq_true hl2pos⟩)
    · intro hall
      have hnil : L.filter (fun l => decide (0 < l)) = [] :=
        List.filter_eq_nil.mpr (fun a ha => by
          simpa using hall a ha)
      rw [hlo, spec_lower, if_pos (by rw [hnil]; rfl)]

/-- Witness for C5 at the concrete input stoich = [-1, 1], c0 = [2, 0],
whose ratio list is [-2, 0]: the interval is (0, 2) and 2 is minus the
maximum negative ratio. -/
theorem C5_rc_interval_bounds_witness :
    -(2:ℚ) ∈ rc_limits [-1, 1] [2, 0] ∧ -(2:ℚ) < 0 ∧
      ∀ l ∈ rc_limits [-1, 1] [2, 0], l < 0 → l ≤ -(2:ℚ) := by
  have hL : rc_limits [-1, 1] [2, 0] = [-2, 0] := by norm_num [rc_limits]
  have hok : get_rc_interval [-1, 1] [2, 0] = .ok (0, 2) := by
    norm_num [get_rc_interval, maxList, List.filter]
  exact (C5_rc_interval_bounds [-1, 1] [2, 0] 0 2 hok).1 ⟨-2, by rw [hL]; norm_num⟩

/-- C6 (confirmed): get_rc_interval raises the 0-interval error exactly
when the feasible interval computed by the spec formulas collapses to
(0, 0); whenever it returns an interval, that interval differs from
(0, 0); and the error propagates through solve_equilibrium instead of a
zero step being returned. -/
theorem C6_zero_interval (stoich c0 : List ℚ) :
    ((get_rc_interval stoich c0 = .error "0-interval") ↔
      (spec_lower (rc_limits stoich c0) = 0 ∧ spec_upper (rc_limits stoich c0) = 0)) ∧
    (∀ lo hi, get_rc_interval stoich c0 = .ok (lo, hi) → ¬(lo = 0 ∧ hi = 0)) ∧
    (∀ (brentq : (ℚ → ℚ) → ℚ → ℚ → ℚ) (c1 : List ℚ) (st : List ℤ) (Keq : ℚ)
      (ap : Option (List ℚ → ℚ)) (e : String),
      get_rc_interval ((masked_stoich c1 st).map (fun s => (s : ℚ)))
          (masked_c0 c1 st) = .error e →
      solve_equilibrium brentq c1 st Keq ap = .error e) := by
  set L := rc_limits stoich c0 with hLdef
  have hup_ne : (L.filter (fun l => decide (l < 0))) ≠ [] → spec_upper L ≠ 0 := by
    intro hne
    have hempty : (L.filter (fun l => decide (l < 0))).isEmpty = false := by
      cases hfe : (L.filter (fun l => decide (l < 0))).isEmpty
      · rfl
      · exact absurd (List.isEmpty_iff.mp hfe) hne
    rw [spec_upper, if_neg (by rw [hempty]; exact Bool.false_ne_true)]
    have := maxList_negs_lt L hne
    intro hcontra
    rw [neg_eq_zero] at hcontra
    exact absurd hcontra (ne_of_lt this)
  have hlo_ne : (L.filter (fun l => decide (0 < l))) ≠ [] → spec_lower L ≠ 0 := by
    intro hne
    have hempty : (L.filter (fun l => decide (0 < l))).isEmpty = false := by
      cases hfe : (L.filter (fun l => decide (0 < l))).isEmpty
      · rfl
      · exact absurd (List.isEmpty_iff.mp hfe) hne
    rw [spec_lower, if_neg (by rw [hempty]; exact Bool.false_ne_true)]
    have := minList_poss_pos L hne
    intro hcontra
    rw [neg_eq_zero] at hcontra
    exact absurd hcontra.symm (ne_of_lt this)
  refine ⟨?_, ?_, ?_⟩
  · constructor
    · intro herr
      rw [get_rc_interval_eq] at herr
      by_cases hcond : (L.filter (fun l => decide (l < 0))).isEmpty &&
          (L.filter (fun l => decide (0 < l))).isEmpty
      · have hn := List.isEmpty_iff.mp (Bool.and_elim_left hcond)
        have hp := List.isEmpty_iff.mp (Bool.and_elim_right hcond)
        constructor
        · rw [spec_lower, if_pos (by rw [hp]; rfl)]
        · rw [spec_upper, if_pos (by rw [hn]; rfl)]
      · rw [← hLdef, if_neg hcond] at herr; cases herr
    · rintro ⟨hl0, hu0⟩
      have hn : (L.filter (fun l => decide (l < 0))) = [] := by
        by_contra hne
        exact hup_ne hne hu0
      have hp : (L.filter (fun l => decide (0 < l))) = [] := by
        by_contra hne
        exact hlo_ne hne hl0
      rw [get_rc_interval_eq, ← hLdef, hn, hp]
      rfl
  · intro lo hi hok ⟨hl0, hu0⟩
    rw [get_rc_interval_eq, ← hLdef] at hok
    by_cases hcond : (L.filter (fun l => decide (l < 0))).isEmpty &&
        (L.filter (fun l => decide (0 < l))).isEmpty
    · rw [if_pos hcond] at hok; cases hok
    · rw [if_neg hcond] at hok
      have hpair : (spec_lower L, spec_upper L) = (lo, hi) := Except.ok.inj hok
      have hlo2 : spec_lower L = 0 := (congrArg Prod.fst hpair).trans hl0
      have hhi2 : spec_upper L = 0 := (congrArg Prod.snd hpair).trans hu0
      apply hcond
      have hn : (L.filter (fun l => decide (l < 0))) = [] := by
        by_contra hne
        exact hup_ne hne hhi2
      have hp : (L.filter (fun l => decide (0 < l))) = [] := by
        by_contra hne
        exact hlo_ne hne hlo2
      rw [hn, hp]
      rfl
  · intro brentq c1 st Keq ap e herr
    rw [solve_equilibrium, solve_equilibrium_coord, herr]

/-- Witness for C6 at stoich = [1], c0 = [0]: the single ratio is 0, the
feasible interval collapses and the 0-interval error is raised. -/
theorem C6_zero_interval_witness : get_rc_interval [1] [0] = .error "0-interval" := by
  apply (C6_zero_interval [1] [0]).1.mpr
  constructor <;> norm_num [spec_lower, spec_upper, rc_limits, List.filter_cons]

/-- C4 (confirmed): with the external root-finder meeting its contract on
the call made (it returns a root of the masked scalar residual inside the
bracket computed by get_rc_interval from the nonzero-stoichiometry
species), solve_equilibrium returns c0 + rc·stoich for that root rc. -/
theorem C4_solve_equilibrium (brentq : (ℚ → ℚ) → ℚ → ℚ → ℚ) (c0 : List ℚ)
    (stoich : List ℤ) (K : ℚ) (ap : Option (List ℚ → ℚ)) (lo hi : ℚ)
    (hnz : ∃ s ∈ stoich, s ≠ 0)
    (hint : get_rc_interval ((masked_stoich c0 stoich).map (fun s => (s : ℚ)))
      (masked_c0 c0 stoich) = .ok (lo, hi))
    (hroot : equilibrium_residual
      (brentq (fun rc => equilibrium_residual rc (masked_c0 c0 stoich)
        (masked_stoich c0 stoich) K ap) lo hi)
      (masked_c0 c0 stoich) (masked_stoich c0 stoich) K ap = 0)
    (hlo : lo ≤ brentq (fun rc => equilibrium_residual rc (masked_c0 c0 stoich)
        (masked_stoich c0 stoich) K ap) lo hi)
    (hhi : brentq (fun rc => equilibrium_residual rc (masked_c0 c0 stoich)
        (masked_stoich c0 stoich) K ap) lo hi ≤ hi) :
    ∃ rc, equilibrium_residual rc (masked_c0 c0 stoich) (masked_stoich c0 stoich) K ap = 0 ∧
      lo ≤ rc ∧ rc ≤ hi ∧
      solve_equilibrium brentq c0 stoich K ap =
        .ok (List.zipWith (fun (ci : ℚ) (si : ℤ) => ci + rc * (si : ℚ)) c0 stoich) := by
  refine ⟨_, hroot, hlo, hhi, ?_⟩
  rw [solve_equilibrium, solve_equilibrium_coord, hint]

/-- Witness for C4 at the single reaction A ⇌ B, stoich = [-1, 1],
c0 = [2, 0], K = 1, where the constant root-finder returning rc = 1 meets
the contract: the bracket is (0, 2), the residual vanishes at 1, and the
returned vector is [1, 1]. -/
theorem C4_solve_equilibrium_witness :
    ∃ rc, equilibrium_residual rc (masked_c0 [2, 0] [-1, 1])
        (masked_stoich [2, 0] [-1, 1]) 1 none = 0 ∧
      (0 : ℚ) ≤ rc ∧ rc ≤ 2 ∧
      solve_equilibrium (fun _ _ _ => 1) [2, 0] [-1, 1] 1 none =
        .ok (List.zipWith (fun (ci : ℚ) (si : ℤ) => ci + rc * (si : ℚ)) [2, 0] [-1, 1]) := by
  apply C4_solve_equilibrium (fun _ _ _ => 1) [2, 0] [-1, 1] 1 none 0 2
  · exact ⟨-1, by norm_num, by norm_num⟩
  · norm_num [get_rc_interval, masked_c0, masked_stoich, masked, maxList,
      List.filter_cons]
  · norm_num [equilibrium_residual, equilibrium_quotient, masked_c0, masked_stoich,
      masked, List.filter_cons]
  · norm_num
  · norm_num

theorem dissolved_cons (r : Rxn) (rest : List Rxn) (cs : List ℚ) :
    dissolved (r :: rest) cs = dissolved rest (dissolved_step cs r) := rfl

theorem length_dissolved_step (cs : List ℚ) (r : Rxn)
    (hlen : r.net_stoich.length = cs.length) :
    (dissolved_step cs r).length = cs.length := by
  rw [dissolved_step]
  split
  · rw [List.length_zipWith, hlen, min_self]
  · rfl

theorem getD_dissolved_step (cs : List ℚ) (r : Rxn) (j : ℕ)
    (hj : j < cs.length) (hlen : r.net_stoich.length = cs.length)
    (hp : r.has_precip = true) :
    (dissolved_step cs r).getD j 0 =
      cs.getD j 0 - cs.getD r.precip_idx 0 / (precipCoeff r : ℚ) *
        ((r.net_stoich.getD j 0 : ℤ) : ℚ) := by
  rw [dissolved_step, if_pos hp]
  exact getD_zipWith _ cs r.net_stoich j 0 0 0 hj (by rw [hlen]; exact hj)

theorem dissolved_untouched (rxns : List Rxn) (cs : List ℚ) (j : ℕ)
    (hj : j < cs.length)
    (hlen : ∀ r ∈ rxns, r.net_stoich.length = cs.length)
    (hz : ∀ r ∈ rxns, r.has_precip = true → r.net_stoich.getD j 0 = 0) :
    (dissolved rxns cs).getD j 0 = cs.getD j 0 := by
  induction rxns generalizing cs with
  | nil => rfl
  | cons r rest ih =>
    have hlenr := hlen r (List.mem_cons_self r rest)
    have hstep : (dissolved_step cs r).length = cs.length := length_dissolved_step cs r hlenr
    have hstep_getD : (dissolved_step cs r).getD j 0 = cs.getD j 0 := by
      by_cases hp : r.has_precip = true
      · rw [getD_dissolved_step cs r j hj hlenr hp, hz r (List.mem_cons_self r rest) hp]
        push_cast
        ring
      · rw [dissolved_step, if_neg hp]
    rw [dissolved_cons,
      ih (dissolved_step cs r) (by rw [hstep]; exact hj)
        (fun r2 h2 => (hlen r2 (List.mem_cons_of_mem r h2)).trans hstep.symm)
        (fun r2 h2 => hz r2 (List.mem_cons_of_mem r h2)),
      hstep_getD]

theorem dissolved_zero (rxns : List Rxn) (cs : List ℚ)
    (hlen : ∀ r ∈ rxns, r.net_stoich.length = cs.length)
    (hidx : ∀ r ∈ rxns, r.has_precip = true → r.precip_idx < cs.length)
    (hcoef : ∀ r ∈ rxns, r.has_precip = true → precipCoeff r ≠ 0)
    (hpair : rxns.Pairwise (fun r r2 => r.has_precip = true → r2.has_precip = true →
      r2.net_stoich.getD r.precip_idx 0 = 0 ∧ r.net_stoich.getD r2.precip_idx 0 = 0)) :
    ∀ r ∈ rxns, r.has_precip = true → (dissolved rxns cs).getD r.precip_idx 0 = 0 := by
  induction rxns generalizing cs with
  | nil => intro r hr; cases hr
  | cons r0 rest ih =>
    obtain ⟨hpair_head, hpair_rest⟩ := List.pairwise_cons.mp hpair
    have hlen0 := hlen r0 (List.mem_cons_self r0 rest)
    have hsteplen : (dissolved_step cs r0).length = cs.length :=
      length_dissolved_step cs r0 hlen0
    intro r hr hp
    rcases List.mem_cons.mp hr with hreq | hmem
    · subst hreq
      rw [dissolved_cons]
      have hidx0 := hidx r (List.mem_cons_self r rest) hp
      have hzero : (dissolved_step cs r).getD r.precip_idx 0 = 0 := by
        rw [getD_dissolved_step cs r r.precip_idx hidx0 hlen0 hp]
        have hs : ((precipCoeff r : ℤ) : ℚ) ≠ 0 :=
          Int.cast_ne_zero.mpr (hcoef r (List.mem_cons_self r rest) hp)
        rw [show ((r.net_stoich.getD r.precip_idx 0 : ℤ) : ℚ) = ((precipCoeff r : ℤ) : ℚ)
            from rfl,
          div_mul_cancel₀ _ hs, sub_self]
      rw [dissolved_untouched rest (dissolved_step cs r) r.precip_idx
        (by rw [hsteplen]; exact hidx0)
        (fun r2 h2 => (hlen r2 (List.mem_cons_of_mem r h2)).trans hsteplen.symm)
        (fun r2 h2 hp2 => (hpair_head r2 h2 hp hp2).1), hzero]
    · rw [dissolved_cons]
      exact ih (dissolved_step cs r0)
        (fun r2 h2 => (hlen r2 (List.mem_cons_of_mem r0 h2)).trans hsteplen.symm)
        (fun r2 h2 hp2 => by rw [hsteplen]; exact hidx r2 (List.mem_cons_of_mem r0 h2) hp2)
        (fun r2 h2 hp2 => hcoef r2 (List.mem_cons_of_mem r0 h2) hp2)
        hpair_rest r hmem hp

/-- C10 (confirmed): when every precipitation reaction has a nonzero
coefficient for its own precipitating species and no other precipitation
reaction touches that species (each precipitating species occurs in
exactly one precipitation reaction), the dissolved projection zeroes the
precipitating species of every precipitation reaction, and every species
index untouched by all precipitation reactions keeps its concentration. -/
theorem C10_dissolved_projection (rxns : List Rxn) (x : List ℚ)
    (hlen : ∀ r ∈ rxns, r.net_stoich.length = x.length)
    (hidx : ∀ r ∈ rxns, r.has_precip = true → r.precip_idx < x.length)
    (hcoef : ∀ r ∈ rxns, r.has_precip = true → precipCoeff r ≠ 0)
    (hpair : rxns.Pairwise (fun r r2 => r.has_precip = true → r2.has_precip = true →
      r2.net_stoich.getD r.precip_idx 0 = 0 ∧ r.net_stoich.getD r2.precip_idx 0 = 0)) :
    (∀ r ∈ rxns, r.has_precip = true → (dissolved rxns x).getD r.precip_idx 0 = 0) ∧
    (∀ j, j < x.length →
      (∀ r ∈ rxns, r.has_precip = true → r.net_stoich.getD j 0 = 0) →
      (dissolved rxns x).getD j 0 = x.getD j 0) :=
  ⟨dissolved_zero rxns x hlen hidx hcoef hpair,
   fun j hj hz => dissolved_untouched rxns x j hj hlen hz⟩

/-- Witness for C10 on the two-precipitation system with stoichiometries
[-1, 1, 0, 0] (solid at index 1) and [-2, 0, 1, 0] (solid at index 2) and
the state [1, 1, 1, 5]: both solid indices are projected to exactly 0 and
the untouched index 3 keeps its value 5. -/
theorem C10_dissolved_projection_witness :
    (dissolved [⟨[-1, 1, 0, 0], 1, 1, true⟩, ⟨[-2, 0, 1, 0], 2, 1, true⟩]
      [1, 1, 1, 5]).getD 1 0 = 0 ∧
    (dissolved [⟨[-1, 1, 0, 0], 1, 1, true⟩, ⟨[-2, 0, 1, 0], 2, 1, true⟩]
      [1, 1, 1, 5]).getD 2 0 = 0 ∧
    (dissolved [⟨[-1, 1, 0, 0], 1, 1, true⟩, ⟨[-2, 0, 1, 0], 2, 1, true⟩]
      [1, 1, 1, 5]).getD 3 0 = 5 := by
  have h := C10_dissolved_projection
    [⟨[-1, 1, 0, 0], 1, 1, true⟩, ⟨[-2, 0, 1, 0], 2, 1, true⟩] [1, 1, 1, 5]
    (by intro r hr; fin_cases hr <;> rfl)
    (by intro r hr; fin_cases hr <;> intro _ <;> norm_num)
    (by intro r hr; fin_cases hr <;> intro _ <;> norm_num [precipCoeff])
    (by
      rw [List.pairwise_cons]
      refine ⟨?_, List.pairwise_singleton _ _⟩
      intro r2 h2
      rw [List.mem_singleton] at h2
      subst h2
      intro _ _
      exact ⟨rfl, rfl⟩)
  refine ⟨?_, ?_, ?_⟩
  · exact h.1 _ (List.mem_cons_self _ _) rfl
  · exact h.1 _ (List.mem_cons_of_mem _ (List.mem_cons_self _ _)) rfl
  · exact h.2 3 (by norm_num)
      (by intro r hr; fin_cases hr <;> intro _ <;> rfl)

/-- C7 (confirmed): the forward condition is true exactly when the
precipitating coefficient s is positive and Q(1+rtol) < K, or s is
negative and Q > K(1+rtol), with Q the quotient of the dissolved
projection of x (s = 0 raises instead); the backward condition is true
exactly when the precipitating species' concentration in x is at or above
the floor small.  rtol defaults to 1e-14 in the source. -/
theorem C7_phase_conditions (rxns : List Rxn) (ri : ℕ) (rxn : Rxn)
    (rtol small : ℚ) (x : List ℚ)
    (hr : rxns[ri]? = some rxn) (hs : precipCoeff rxn ≠ 0) :
    ((fw_cond rxns ri rtol x = .ok true) ↔
      ((0 < precipCoeff rxn ∧ rxnQ rxn (dissolved rxns x) * (1 + rtol) < rxn.K) ∨
       (precipCoeff rxn < 0 ∧ rxn.K * (1 + rtol) < rxnQ rxn (dissolved rxns x)))) ∧
    ((bw_cond rxns ri small x = .ok true) ↔ small ≤ x.getD rxn.precip_idx 0) := by
  have hok : ∀ b : Bool, ((Except.ok b : Except String Bool) = .ok true) ↔ b = true :=
    fun b => ⟨fun h => Except.ok.inj h, fun h => by rw [h]⟩
  constructor
  · simp only [fw_cond, hr]
    rcases lt_trichotomy (precipCoeff rxn) 0 with hneg | hzero | hpos
    · rw [if_neg (not_lt.mpr (le_of_lt hneg)), if_pos hneg, hok, decide_eq_true_eq]
      constructor
      · intro h; exact Or.inr ⟨hneg, h⟩
      · rintro (⟨hpos2, -⟩ | ⟨-, h⟩)
        · exact absurd hpos2 (not_lt.mpr (le_of_lt hneg))
        · exact h
    · exact absurd hzero hs
    · rw [if_pos hpos, hok, decide_eq_true_eq]
      constructor
      · intro h; exact Or.inl ⟨hpos, h⟩
      · rintro (⟨-, h⟩ | ⟨hneg2, -⟩)
        · exact h
        · exact absurd hpos (not_lt.mpr (le_of_lt hneg2))
  · simp only [bw_cond, hr]
    rw [hok, Bool.not_eq_true', decide_eq_false_iff_not, not_lt]

/-- Witness for C7 on the precipitation reaction with stoichiometry
[-1, 1] (solid at index 1, coefficient +1, K = 1) at the state [1, 1]:
the dissolved projection is [2, 0], Q = 0, so the forward condition holds,
and the solid concentration 1 is above small = 0, so the backward
condition holds. -/
theorem C7_phase_conditions_witness :
    fw_cond [⟨[-1, 1], 1, 1, true⟩] 0 (1 / 10 ^ 14) [1, 1] = .ok true ∧
    bw_cond [⟨[-1, 1], 1, 1, true⟩] 0 0 [1, 1] = .ok true := by
  have h := C7_phase_conditions [⟨[-1, 1], 1, 1, true⟩] 0 ⟨[-1, 1], 1, 1, true⟩
    (1 / 10 ^ 14) 0 [1, 1] rfl (by norm_num [precipCoeff, List.getD])
  constructor
  · apply h.1.mpr
    left
    constructor
    · norm_num [precipCoeff, List.getD]
    · norm_num [rxnQ, equilibrium_quotient, dissolved, dissolved_step, precipCoeff,
        List.getD]
  · apply h.2.mpr
    norm_num [List.getD]

/-- C2 (corrected, counterexample): at the state [1, 2] of the same
precipitation system, with rtol = 1e-14 and the Linear strategy floor
small = 0, the forward and the backward condition are both true: the
dissolved projection [3, 0] gives Q = 0 < K while the solid concentration
2 is above the floor. -/
theorem C2_counterexample :
    fw_cond [⟨[-1, 1], 1, 1, true⟩] 0 (1 / 10 ^ 14) [1, 2] = .ok true ∧
    bw_cond [⟨[-1, 1], 1, 1, true⟩] 0 0 [1, 2] = .ok true := by
  constructor
  · norm_num [fw_cond, rxnQ, equilibrium_quotient, dissolved, dissolved_step,
      precipCoeff, List.getD]
  · norm_num [bw_cond, List.getD]

/-- C2 (corrected, amended): the two conditions are not mutually exclusive
in general; they are never both true at a state whose precipitating
species' concentration lies below the floor small (there the backward
condition is false). -/
theorem C2_no_both_when_absent (rxns : List Rxn) (ri : ℕ) (rxn : Rxn)
    (rtol small : ℚ) (x : List ℚ)
    (hr : rxns[ri]? = some rxn) (habs : x.getD rxn.precip_idx 0 < small) :
    ¬(fw_cond rxns ri rtol x = .ok true ∧ bw_cond rxns ri small x = .ok true) := by
  rintro ⟨-, hbw⟩
  rw [bw_cond, hr] at hbw
  have h2 := Except.ok.inj hbw
  rw [decide_eq_true habs] at h2
  cases h2

/-- Witness for the amended C2 at the state [0, 0] with floor small = 1:
the solid concentration 0 is below the floor, so the conditions are not
both true. -/
theorem C2_no_both_when_absent_witness :
    ¬(fw_cond [⟨[-1, 1], 1, 1, true⟩] 0 (1 / 10 ^ 14) [0, 0] = .ok true ∧
      bw_cond [⟨[-1, 1], 1, 1, true⟩] 0 1 [0, 0] = .ok true) :=
  C2_no_both_when_absent [⟨[-1, 1], 1, 1, true⟩] 0 ⟨[-1, 1], 1, 1, true⟩
    (1 / 10 ^ 14) 1 [0, 0] rfl (by norm_num [List.getD])

/-- C9 (confirmed): the sanity checker returns false exactly when some
entry of x is negative or some entry exceeds its conservation-derived
upper bound times (1 + 1e-12); any x with a negative entry is always
flagged; the two violations emit distinct warnings that can fire together
on one input; and the flagged value is still returned to the caller. -/
theorem C9_result_is_sane_spec :
    (∀ (subs : List (Subst ℚ)) (init x : List ℚ),
      x.length = (upper_conc_bounds subs init).length →
      (result_is_sane subs init x = false ↔
        ((∃ t ∈ x, t < 0) ∨
         (∃ i, ∃ hi : i < x.length,
           (upper_conc_bounds subs init).getD i 0 * (1 + 1 / 10 ^ 12) < x[i])))) ∧
    (∀ (subs : List (Subst ℚ)) (init x : List ℚ) (t : ℚ), t ∈ x → t < 0 →
      result_is_sane subs init x = false) ∧
    (sanity_warnings [⟨[(1, 1)]⟩, ⟨[(1, 1)]⟩] [1, 1] [-1, 10] =
        ["Negative concentration", "Too much of at least one component"] ∧
      "Negative concentration" ≠ "Too much of at least one component") ∧
    (∀ (subs : List (Subst ℚ)) (init x : List ℚ), (solve_result subs init x).1 = x) := by
  refine ⟨?_, ?_, ⟨?_, by decide⟩, fun _ _ _ => rfl⟩
  · intro subs init x hlen
    simp only [result_is_sane, Bool.not_eq_false', Bool.or_eq_true, List.any_eq_true,
      decide_eq_true_eq]
    constructor
    · rintro (⟨t, ht, htneg⟩ | ⟨p, hp, hcomp⟩)
      · exact Or.inl ⟨t, ht, htneg⟩
      · obtain ⟨n, hn, hpe⟩ := List.mem_iff_getElem.mp hp
        rw [List.length_zip] at hn
        have hxn : n < x.length := lt_of_lt_of_le hn (min_le_left _ _)
        have hbn : n < (upper_conc_bounds subs init).length :=
          lt_of_lt_of_le hn (min_le_right _ _)
        refine Or.inr ⟨n, hxn, ?_⟩
        rw [List.getD_eq_getElem _ _ hbn]
        have : p = (x[n], (upper_conc_bounds subs init)[n]) := by
          rw [← hpe, List.getElem_zip]
        rw [this] at hcomp
        exact hcomp
    · rintro (⟨t, ht, htneg⟩ | ⟨i, hi, hcomp⟩)
      · exact Or.inl ⟨t, ht, htneg⟩
      · have hib : i < (upper_conc_bounds subs init).length := hlen ▸ hi
        refine Or.inr ⟨(x[i], (upper_conc_bounds subs init)[i]), ?_, ?_⟩
        · exact List.mem_iff_getElem.mpr ⟨i,
            by rw [List.length_zip]; exact lt_min hi hib,
            by rw [List.getElem_zip]⟩
        · rw [List.getD_eq_getElem _ _ hib] at hcomp
          exact hcomp
  · intro subs init x t ht htneg
    simp only [result_is_sane, Bool.not_eq_false', Bool.or_eq_true, List.any_eq_true,
      decide_eq_true_eq]
    exact Or.inl ⟨t, ht, htneg⟩
  · norm_num [sanity_warnings, upper_conc_bounds, compConc, coeffOf, minList,
      List.filter_cons]

/-- Witness for C9 at the one-substance system with composition weight 1
for component 1, init = [1], candidate x = [-1]: the negative entry is
flagged sane = false and the value is still the one handed back. -/
theorem C9_result_is_sane_spec_witness :
    result_is_sane [⟨[(1, 1)]⟩] [1] [-1] = false ∧
    (solve_result [⟨[(1, 1)]⟩] [1] [-1]).1 = [-1] :=
  ⟨C9_result_is_sane_spec.2.1 [⟨[(1, 1)]⟩] [1] [-1] (-1) (List.mem_cons_self _ _)
    (by norm_num),
   C9_result_is_sane_spec.2.2.2 [⟨[(1, 1)]⟩] [1] [-1]⟩

/-- C3 (corrected, counterexample): for the one-substance system with
composition weight 1 for component 1 and init = [1], the checker accepts
x = [1/2] (sane = true), yet the single balance vector b = [1] gives
b·x = 1/2 against b·init = 1, violating the claimed relative tolerance
1e-10 by nine orders of magnitude. -/
theorem C3_counterexample :
    result_is_sane [⟨[(1, 1)]⟩] [1] [1 / 2] = true ∧
    composition_conservation ([⟨[(1, 1)]⟩] : List (Subst ℚ)) [1 / 2] [1] =
      ([1], [1 / 2], [1]) ∧
    ¬(|(1 : ℚ) / 2 - 1| ≤ 1 / 10 ^ 10 * |(1 : ℚ)|) := by
  refine ⟨?_, ?_, ?_⟩
  · norm_num [result_is_sane, upper_conc_bounds, compConc, coeffOf, minList,
      List.filter_cons]
  · norm_num [composition_conservation, composition_balance_vectors, coeffOf, dotL,
      List.filter_cons]
  · rw [abs_of_nonpos (by norm_num), abs_of_nonneg (by norm_num)]
    norm_num

/-- C3 (corrected, amended): what acceptance by _result_is_sane actually
guarantees is that every entry of x is nonnegative and at most its
conservation-derived upper bound times (1 + 1e-12); the conservation
equality b·x = b·init_concs is not checked and can fail on accepted
results. -/
theorem C3_sane_bounds (subs : List (Subst ℚ)) (init x : List ℚ)
    (hlen : x.length = (upper_conc_bounds subs init).length)
    (hsane : result_is_sane subs init x = true) :
    ∀ i, (hi : i < x.length) →
      0 ≤ x[i] ∧ x[i] ≤ (upper_conc_bounds subs init).getD i 0 * (1 + 1 / 10 ^ 12) := by
  intro i hi
  simp only [result_is_sane, Bool.not_eq_true', Bool.or_eq_false_iff,
    List.any_eq_false, decide_eq_true_eq] at hsane
  constructor
  · exact not_lt.mp (fun h => hsane.1 x[i] (List.getElem_mem hi) h)
  · have hib : i < (upper_conc_bounds subs init).length := hlen ▸ hi
    have hmem : (x[i], (upper_conc_bounds subs init)[i]) ∈
        x.zip (upper_conc_bounds subs init) :=
      List.mem_iff_getElem.mpr ⟨i, by rw [List.length_zip]; exact lt_min hi hib,
        by rw [List.getElem_zip]⟩
    have h2 := hsane.2 _ hmem
    rw [List.getD_eq_getElem _ _ hib]
    exact not_lt.mp (fun h => h2 h)

/-- Witness for the amended C3 at the accepted candidate x = [1/2] of the
one-substance system: its single entry is nonnegative and within the
bound 1·(1 + 1e-12). -/
theorem C3_sane_bounds_witness :
    0 ≤ (1 : ℚ) / 2 ∧
    (1 : ℚ) / 2 ≤ (upper_conc_bounds [⟨[(1, 1)]⟩] [1]).getD 0 0 * (1 + 1 / 10 ^ 12) := by
  have h := C3_sane_bounds [⟨[(1, 1)]⟩] [1] [1 / 2]
    (by norm_num [upper_conc_bounds, compConc, coeffOf, minList, List.filter_cons])
    (by norm_num [result_is_sane, upper_conc_bounds, compConc, coeffOf, minList,
      List.filter_cons])
    0 (by norm_num)
  simpa using h

/-- C1 (corrected, amended): the residual vector built by NumSysLog.f is
the equilibrium rows (A·y)_i − log k_i (the sign of the logarithm is
minus, not plus as claimed) followed by the conservation rows
B_j·exp(y) − B_j·init_concs, with init_concs = params[:ns] and
ks = params[ns:]. -/
theorem C1_log_residual_rows (A B : List (List ℝ)) (ns : ℕ) (params y : List ℝ) :
    numSysLog_f A B ns params y =
      log_equil_rows A (params.drop ns) y ++
      balance_rows B (y.map Real.exp) (params.take ns) := by
  rw [numSysLog_f, log_equil_rows, balance_rows]
  congr 1
  · rw [mat_dot_vec, List.zipWith_map_right]
    simp only [sub_eq_add_neg]
  · rw [linear_exprs, matVec, List.zipWith_map_right, zipWith_self]

/-- C1 (corrected, counterexample): for A = [[1]], no conservation rows,
ns = 0, params = [e] (so k = e and log k = 1) and y = [0], the residual
row built by NumSysLog.f is (A·y)_0 − log k = −1, while the claimed form
(A·y)_0 + log k equals +1. -/
theorem C1_counterexample :
    numSysLog_f [[1]] [] 0 [Real.exp 1] [0] = [-1] ∧
    dotL [(1 : ℝ)] [0] + Real.log (Real.exp 1) = 1 ∧
    ((-1 : ℝ)) ≠ 1 := by
  refine ⟨?_, ?_, by norm_num⟩
  · simp [numSysLog_f, mat_dot_vec, linear_exprs, matVec, dotL, Real.log_exp]
  · simp [dotL, Real.log_exp]

theorem tanh_half_log (a : ℝ) (ha : 0 < a) :
    Real.tanh (Real.log a / 2) = (a - 1) / (a + 1) := by
  rw [Real.tanh_eq_sinh_div_cosh, Real.sinh_eq, Real.cosh_eq, Real.exp_neg]
  have hs2 : Real.exp (Real.log a / 2) * Real.exp (Real.log a / 2) = a := by
    rw [← Real.exp_add, show Real.log a / 2 + Real.log a / 2 = Real.log a by ring]
    exact Real.exp_log ha
  have hspos : 0 < Real.exp (Real.log a / 2) := Real.exp_pos _
  generalize hgen : Real.exp (Real.log a / 2) = s at hs2 hspos ⊢
  have hsne : s ≠ 0 := ne_of_gt hspos
  have hinv : 0 < s⁻¹ := inv_pos.mpr hspos
  have hden : s + s⁻¹ ≠ 0 := ne_of_gt (by linarith)
  rw [← hs2]
  have hP : s * s + 1 ≠ 0 := by positivity
  field_simp

theorem tanh_np_arctanh (t : ℝ) (h1 : -1 < t) (h2 : t < 1) :
    Real.tanh (np_arctanh t) = t := by
  have hd : (0 : ℝ) < 1 - t := by linarith
  have hn : (0 : ℝ) < 1 + t := by linarith
  have ha : 0 < (1 + t) / (1 - t) := div_pos hn hd
  rw [np_arctanh, tanh_half_log _ ha]
  have hdne : (1 : ℝ) - t ≠ 0 := ne_of_gt hd
  have hsumne : (1 + t) / (1 - t) + 1 ≠ 0 := by
    have : 0 < (1 + t) / (1 - t) + 1 := by linarith
    exact ne_of_gt this
  field_simp
  ring

theorem linrel_roundtrip_aux (x m : List ℝ) (hlen : x.length = m.length)
    (hm : ∀ mi ∈ m, mi ≠ 0) :
    List.zipWith (fun yi mi => yi * mi) (List.zipWith (fun xi mi => xi / mi) x m) m = x := by
  induction x generalizing m with
  | nil => rfl
  | cons a x ih =>
    cases m with
    | nil => cases hlen
    | cons b m =>
      simp only [List.zipWith_cons_cons]
      rw [div_mul_cancel₀ a (hm b (List.mem_cons_self b m)),
        ih m (by simpa using hlen) (fun mi hmi => hm mi (List.mem_cons_of_mem b hmi))]

theorem tanh_roundtrip_aux (x m : List ℝ) (hlen : x.length = m.length)
    (hcond : ∀ p ∈ x.zip m, 0 < p.2 ∧ 0 < p.1 ∧ p.1 < 9 / 8 * p.2) :
    List.zipWith (fun yi mi => mi * (4 + 5 * Real.tanh yi) / 8)
      (List.zipWith (fun xi mi => np_arctanh ((8 * xi / mi - 4) / 5)) x m) m = x := by
  induction x generalizing m with
  | nil => rfl
  | cons a x ih =>
    cases m with
    | nil => cases hlen
    | cons b m =>
      simp only [List.zipWith_cons_cons]
      obtain ⟨hb, ha, hab⟩ := hcond (a, b) (by simp [List.zip_cons_cons])
      have hbne : b ≠ 0 := ne_of_gt hb
      have hq : 0 < a / b := div_pos ha hb
      have hq2 : a / b < 9 / 8 := (div_lt_iff hb).mpr (by linarith)
      have harg1 : -1 < (8 * a / b - 4) / 5 := by
        rw [mul_div_assoc]
        nlinarith
      have harg2 : (8 * a / b - 4) / 5 < 1 := by
        rw [mul_div_assoc]
        nlinarith
      rw [tanh_np_arctanh _ harg1 harg2]
      have hhead : b * (4 + 5 * ((8 * a / b - 4) / 5)) / 8 = a := by
        field_simp
        ring
      rw [hhead, ih m (by simpa using hlen)
        (fun p hp => hcond p (List.mem_cons_of_mem _ hp))]

/-- C8 (corrected, amended): the round trips that actually hold are:
Linear-Relative with all bounds nonzero and Square-root with nonnegative
entries round-trip exactly; the Log strategy round-trips to x + small
exactly (equal to x only up to the absolute offset small = exp(−80)); and
the Tanh strategy round-trips exactly only when every entry stays
strictly below 9/8 of its upper bound (inside the arctanh domain) — for
larger entries it fails (see the counterexample).  Parameters pass
through all four unchanged. -/
theorem C8_roundtrips :
    (∀ (subs : List (Subst ℝ)) (ns : ℕ) (params x : List ℝ),
      x.length = (max_concs subs ns params).length →
      (∀ m ∈ max_concs subs ns params, m ≠ 0) →
      numSysLinRel_post subs ns (numSysLinRel_pre subs ns x params).1 params = (x, params)) ∧
    (∀ (x params : List ℝ), (∀ t ∈ x, 0 ≤ t) →
      numSysSquare_post (numSysSquare_pre x params).1 params = (x, params)) ∧
    (∀ (x params : List ℝ), (∀ t ∈ x, 0 < t + numSysLog_small) →
      numSysLog_post (numSysLog_pre x params).1 params =
        (x.map (fun t => t + numSysLog_small), params)) ∧
    (∀ (subs : List (Subst ℝ)) (ns : ℕ) (params x : List ℝ),
      x.length = (max_concs subs ns params).length →
      (∀ p ∈ x.zip (max_concs subs ns params), 0 < p.2 ∧ 0 < p.1 ∧ p.1 < 9 / 8 * p.2) →
      numSysLinTanh_post subs ns (numSysLinTanh_pre subs ns x params).1 params =
        (x, params)) := by
  refine ⟨?_, ?_, ?_, ?_⟩
  · intro subs ns params x hlen hm
    rw [numSysLinRel_pre, numSysLinRel_post]
    rw [linrel_roundtrip_aux x (max_concs subs ns params) hlen hm]
  · intro x params hx
    rw [numSysSquare_pre, numSysSquare_post]
    rw [List.map_map]
    refine Prod.ext ?_ rfl
    rw [show (fun t => t ^ 2) ∘ (fun t => Real.sqrt |t|) =
        fun t => (Real.sqrt |t|) ^ 2 from rfl]
    have hpt : ∀ t ∈ x, Real.sqrt |t| ^ 2 = t := by
      intro t ht
      rw [abs_of_nonneg (hx t ht), Real.sq_sqrt (hx t ht)]
    rw [List.map_congr_left hpt]
    simp
  · intro x params hx
    rw [numSysLog_pre, numSysLog_post]
    rw [List.map_map]
    refine Prod.ext ?_ rfl
    have hpt : ∀ t ∈ x, (Real.exp ∘ fun t => Real.log (t + numSysLog_small)) t =
        t + numSysLog_small := by
      intro t ht
      exact Real.exp_log (hx t ht)
    exact List.map_congr_left hpt
  · intro subs ns params x hlen hcond
    rw [numSysLinTanh_pre, numSysLinTanh_post]
    rw [tanh_roundtrip_aux x (max_concs subs ns params) hlen hcond]

/-- Witness for the amended C8: the Square-root strategy round-trips
x = [2], and the Tanh strategy round-trips x = [1/2] against the computed
bound list [1] of the one-substance system. -/
theorem C8_roundtrips_witness :
    numSysSquare_post (numSysSquare_pre [2] [5]).1 [5] = ([2], [5]) ∧
    numSysLinTanh_post ([⟨[(1, 1)]⟩] : List (Subst ℝ)) 1
      (numSysLinTanh_pre [⟨[(1, 1)]⟩] 1 [1 / 2] [1]).1 [1] = ([1 / 2], [1]) := by
  have hmc : max_concs ([⟨[(1, 1)]⟩] : List (Subst ℝ)) 1 [1] = [1] := by
    norm_num [max_concs, upper_conc_bounds, compConc, coeffOf, minList, List.filter_cons]
  constructor
  · exact C8_roundtrips.2.1 [2] [5] (by norm_num)
  · refine C8_roundtrips.2.2.2 [⟨[(1, 1)]⟩] 1 [1] [1 / 2] (by rw [hmc]; simp) ?_
    rw [hmc]
    intro p hp
    simp only [List.zip_cons_cons, List.zip_nil_right] at hp
    rcases List.mem_singleton.mp hp with rfl
    norm_num

/-- C8 (corrected, counterexample): the Tanh strategy violates the claimed
round trip on a vector whose entries all exceed its small floor 0: with
upper bound 1 and x = [2] (so 2 > 0 = small), post(pre(x)) evaluates to
[73/96], not [2]. -/
theorem C8_counterexample :
    (0 : ℝ) < 2 ∧
    (numSysLinTanh_post ([⟨[(1, 1)]⟩] : List (Subst ℝ)) 1
      (numSysLinTanh_pre [⟨[(1, 1)]⟩] 1 [2] [1]).1 [1]).1 = [73 / 96] ∧
    (73 / 96 : ℝ) ≠ 2 := by
  refine ⟨by norm_num, ?_, by norm_num⟩
  have hmc : max_concs ([⟨[(1, 1)]⟩] : List (Subst ℝ)) 1 [1] = [1] := by
    norm_num [max_concs, upper_conc_bounds, compConc, coeffOf, minList, List.filter_cons]
  rw [numSysLinTanh_post, numSysLinTanh_pre, hmc]
  have harct : np_arctanh ((8 * (2 : ℝ) / 1 - 4) / 5) = Real.log (17 / 7) / 2 := by
    rw [show ((8 * (2 : ℝ) / 1 - 4) / 5) = 12 / 5 by norm_num, np_arctanh,
      show ((1 : ℝ) + 12 / 5) / (1 - 12 / 5) = -(17 / 7) by norm_num,
      Real.log_neg_eq_log]
  have htanh : Real.tanh (Real.log ((17 : ℝ) / 7) / 2) = 5 / 12 := by
    rw [tanh_half_log ((17 : ℝ) / 7) (by norm_num)]
    norm_num
  simp only [List.zipWith_cons_cons, List.zipWith_nil_right, harct, htanh]
  norm_num

end ChempyEq
